import Mathlib

/-!
Verification of the YoukaiDNS DNS server against its specification.

The Go source is shallowly embedded: Go byte slices and strings are
modelled as `List Nat` (one entry per byte), Go maps as functions into
`Option`, and fallible Go functions as `Option`-returning Lean functions.
Machine-integer truncations are written explicitly with `% 256` / `% 65536`.
-/

namespace YoukaiDNS

/-- Go strings/byte slices are byte lists. -/
abbrev Bytes := List Nat

/-- Byte list of an ASCII string literal (Go string literals in the source). -/
def bytesOf (s : String) : Bytes := s.data.map Char.toNat

/-- The byte value of the label separator character. -/
def dot : Nat := 46

/-- Decimal digits of a run of bytes, folded left as in `strconv.Atoi`;
fails on any non-digit byte. -/
def digitsVal (bs : Bytes) : Option Nat :=
  bs.foldl (fun acc b =>
    match acc with
    | none => none
    | some n => if 48 ≤ b ∧ b ≤ 57 then some (n * 10 + (b - 48)) else none)
    (some 0)

/-- Embedding of Go `strconv.Atoi` / `strconv.ParseInt` (base 10): optional
sign, at least one digit, all digits.  The model is unbounded (the claims
never depend on 64-bit overflow behaviour). -/
def atoi (bs : Bytes) : Option Int :=
  match bs with
  | [] => none
  | b :: rest =>
    if b = 43 then
      if rest = [] then none else (digitsVal rest).map Int.ofNat
    else if b = 45 then
      if rest = [] then none else (digitsVal rest).map (fun n => -(n : Int))
    else (digitsVal bs).map Int.ofNat

/-- Value of one ASCII hex digit, as in Go `encoding/hex.fromHexChar`. -/
def hexVal (b : Nat) : Option Nat :=
  if 48 ≤ b ∧ b ≤ 57 then some (b - 48)
  else if 97 ≤ b ∧ b ≤ 102 then some (b - 87)
  else if 65 ≤ b ∧ b ≤ 70 then some (b - 55)
  else none

/-- Embedding of Go `hex.DecodeString`: pairs of hex digits become bytes;
odd length or a non-hex byte is an error. -/
def hexDecode : Bytes → Option Bytes
  | [] => some []
  | [_] => none
  | a :: b :: rest =>
    match hexVal a, hexVal b, hexDecode rest with
    | some hi, some lo, some tail => some ((hi * 16 + lo) :: tail)
    | _, _, _ => none

/-- Embedding of Go `strings.ToLower` restricted to ASCII bytes (the private
grammars only ever compare ASCII labels). -/
def toLowerBytes (bs : Bytes) : Bytes :=
  bs.map (fun b => if 65 ≤ b ∧ b ≤ 90 then b + 32 else b)

/-- ASCII decimal rendering of a natural number (Go `fmt.Sprintf` with a
non-negative count). -/
def natToDec (n : Nat) : Bytes := bytesOf (toString n)

/-- Big-endian two-byte encoding of a 16-bit field (`binary.BigEndian`). -/
def u16be (n : Nat) : Bytes := [n / 256 % 256, n % 256]

/-- Big-endian four-byte encoding of a 32-bit field. -/
def u32be (n : Nat) : Bytes :=
  [n / 16777216 % 256, n / 65536 % 256, n / 256 % 256, n % 256]

/-- Big-endian 16-bit read at index `i` (`binary.BigEndian.Uint16`);
out-of-range bytes read as 0 (callers bounds-check first, as the Go does). -/
def readU16 (data : Bytes) (i : Nat) : Nat :=
  data.getD i 0 * 256 + data.getD (i + 1) 0

/-- DNS message header, six 16-bit fields (Go `dns.MessageHeader`). -/
structure MessageHeader where
  ID : Nat
  Flags : Nat
  QdCount : Nat
  AnCount : Nat
  NsCount : Nat
  ArCount : Nat
deriving DecidableEq, Repr

/-- A DNS question (Go `dns.Question`); the Go field `Type` is `Ty` here. -/
structure Question where
  Name : Bytes
  Ty : Nat
  Class : Nat
deriving DecidableEq, Repr

/-- A DNS resource record (Go `dns.ResourceRecord`); Go field `Type` is `Ty`. -/
structure ResourceRecord where
  Name : Bytes
  Ty : Nat
  Class : Nat
  TTL : Nat
  DataLen : Nat
  Data : Bytes
deriving DecidableEq, Repr

/-- A DNS message (Go `dns.Message`).  The Go struct also declares
`Authorities` and `Additionals` slices, but no code path reads or writes
them: `ParseMessage` leaves them nil, `BuildResponse` never sets them and
`ToBytes` serialises only the questions and answers, so they are omitted
from the embedding. -/
structure Message where
  Header : MessageHeader
  Questions : List Question
  Answers : List ResourceRecord
deriving DecidableEq, Repr

/-- Go constant `dns.TypeA` (the `package dns` constants block embedded in
the source): IPv4 address record type. -/
def TypeA : Nat := 1

/-- Go constant `dns.TypeTXT`: text record type. -/
def TypeTXT : Nat := 16

/-- Go constant `dns.FlagQR`: the query/response flag bit. -/
def FlagQR : Nat := 0x8000

/-- Go constant `dns.FlagAA`: the authoritative-answer flag bit. -/
def FlagAA : Nat := 0x0400

/-- Go constant `dns.FlagResponse = FlagQR | FlagAA`, the bits set on every
response the server builds. -/
def FlagResponse : Nat := FlagQR ||| FlagAA

/-- Go constant `dns.RcodeNoError`: successful response code. -/
def RcodeNoError : Nat := 0

/-- Go constant `dns.RcodeNXDomain`: name-error response code. -/
def RcodeNXDomain : Nat := 3

/-- Core of Go `decodeName`: walks length-prefixed labels from `offset`,
following compression pointers.  Mirrors the Go loop variables: `acc` is the
accumulated name, `jumped/origOff` remember the byte after the first pointer,
`jumps` counts pointer jumps against `maxJumps`.  The Go code has `maxJumps`
fixed at 5; it is a parameter here so that the jump-limit behaviour can be
stated, and the performed-jump count is returned alongside the name.  The
`fuel` argument only bounds the recursion; `decodeNameAux_fuel_stable` below
shows the fuel supplied by `decodeFuel` never runs out, so this computes the
Go loop exactly.  (A pointer whose second byte would lie past the end of the
message makes the Go code panic inside `binary.BigEndian.Uint16`; it is an
error here.) -/
def decodeNameAux (data : Bytes) (maxJumps : Nat) :
    Nat → Nat → Bytes → Bool → Nat → Nat → Option (Bytes × Nat × Nat)
  | 0, _, _, _, _, _ => none
  | fuel + 1, offset, acc, jumped, origOff, jumps =>
    if offset < data.length then
      let len := data.getD offset 0
      if len = 0 then
        some (acc, (if jumped then origOff else offset + 1), jumps)
      else if len &&& 192 = 192 then
        let origOff' := if jumped then origOff else offset + 2
        if maxJumps < jumps + 1 then none
        else if offset + 1 < data.length then
          decodeNameAux data maxJumps fuel
            ((len * 256 + data.getD (offset + 1) 0) &&& 16383)
            acc true origOff' (jumps + 1)
        else none
      else
        if offset + 1 + len ≤ data.length then
          let acc' := if acc = [] then (data.drop (offset + 1)).take len
                      else acc ++ dot :: (data.drop (offset + 1)).take len
          decodeNameAux data maxJumps fuel (offset + 1 + len) acc' jumped origOff jumps
        else none
    else none

/-- Fuel that always suffices for `decodeNameAux`: one unit per loop
iteration, where at most `maxJumps + 1` pointer segments each walk at most
the whole message. -/
def decodeFuel (data : Bytes) (maxJumps : Nat) : Nat :=
  (maxJumps + 1) * (data.length + 1) + data.length + 1

/-- Go `decodeName` including the performed-jump count (its `maxJumps` is 5). -/
def decodeNameCore (data : Bytes) (maxJumps offset : Nat) : Option (Bytes × Nat × Nat) :=
  decodeNameAux data maxJumps (decodeFuel data maxJumps) offset [] false 0 0

/-- Embedding of Go `decodeName`: name bytes and the offset of the byte
following the name (after the first pointer, if any jump happened). -/
def decodeName (data : Bytes) (offset : Nat) : Option (Bytes × Nat) :=
  (decodeNameCore data 5 offset).map (fun r => (r.1, r.2.1))

/-- Label-encoding loop of Go `encodeName`: length-prefix each label,
failing on a label longer than 63 bytes, and terminate with a zero byte. -/
def encodeLabels : List Bytes → Option Bytes
  | [] => some [0]
  | p :: ps =>
    if p.length > 63 then none
    else (encodeLabels ps).map (fun rest => p.length :: (p ++ rest))

/-- Embedding of Go `encodeName`: an empty name is a single zero byte,
otherwise the name splits on `.` into length-prefixed labels. -/
def encodeName (name : Bytes) : Option Bytes :=
  if name = [] then some [0] else encodeLabels (name.splitOn dot)

/-- Wire bytes of one question in Go `ToBytes`. -/
def encodeQuestion (q : Question) : Option Bytes :=
  (encodeName q.Name).map (fun nb => nb ++ u16be q.Ty ++ u16be q.Class)

/-- Wire bytes of one answer record in Go `ToBytes`. -/
def encodeRR (rr : ResourceRecord) : Option Bytes :=
  (encodeName rr.Name).map
    (fun nb => nb ++ u16be rr.Ty ++ u16be rr.Class ++ u32be rr.TTL ++
      u16be rr.DataLen ++ rr.Data)

/-- The twelve header bytes written by Go `ToBytes`. -/
def headerBytes (h : MessageHeader) : Bytes :=
  u16be h.ID ++ u16be h.Flags ++ u16be h.QdCount ++ u16be h.AnCount ++
    u16be h.NsCount ++ u16be h.ArCount

/-- Embedding of Go `(*Message).ToBytes`. -/
def toBytes (m : Message) : Option Bytes := do
  let qs ← m.Questions.mapM encodeQuestion
  let as ← m.Answers.mapM encodeRR
  some (headerBytes m.Header ++ qs.flatten ++ as.flatten)

/-- Question-parsing loop of Go `ParseMessage`: decodes `n` questions
starting at `offset`. -/
def parseQuestions (data : Bytes) : Nat → Nat → List Question → Option (List Question × Nat)
  | 0, offset, acc => some (acc.reverse, offset)
  | n + 1, offset, acc =>
    match decodeName data offset with
    | none => none
    | some (name, off1) =>
      if off1 + 4 ≤ data.length then
        parseQuestions data n (off1 + 4)
          ({ Name := name, Ty := readU16 data off1, Class := readU16 data (off1 + 2) } :: acc)
      else none

/-- Embedding of Go `ParseMessage`: header plus exactly `QdCount` questions;
answer sections are never decoded (queries only), so `Answers` is empty. -/
def parseMessage (data : Bytes) : Option Message :=
  if data.length < 12 then none
  else
    let hdr : MessageHeader :=
      { ID := readU16 data 0, Flags := readU16 data 2, QdCount := readU16 data 4,
        AnCount := readU16 data 6, NsCount := readU16 data 8, ArCount := readU16 data 10 }
    match parseQuestions data hdr.QdCount 12 [] with
    | none => none
    | some (qs, _) => some { Header := hdr, Questions := qs, Answers := [] }

/-- Embedding of Go `BuildResponse`. -/
def buildResponse (query : Message) (answers : List ResourceRecord) (rcode : Nat) : Message :=
  { Header :=
      { ID := query.Header.ID, Flags := FlagResponse ||| rcode,
        QdCount := query.Header.QdCount, AnCount := answers.length,
        NsCount := 0, ArCount := 0 },
    Questions := query.Questions, Answers := answers }

/-- Value of a zone record (the Go `interface{}`): an IPv4 dotted string for
A records, or a list of text strings for TXT records. -/
inductive RecordValue where
  | addr (ip : Bytes)
  | txt (vals : List Bytes)
deriving DecidableEq, Repr

/-- A zone record (Go `server.Record`); Go field `Type` is `Ty`. -/
structure Record where
  Ty : Nat
  Value : RecordValue
deriving DecidableEq, Repr

/-- Per-transfer assembly state (Go `server.FileAssembly`).  `Parts` is the
Go `map[int][]byte` as an association list with unique keys; `CompletedAt`
keeps only whether the completion timestamp has been set. -/
structure FileAssembly where
  Filename : Bytes
  Hash : Bytes
  TotalParts : Int
  ChunkSize : Int
  TotalBytes : Int
  Parts : List (Nat × Bytes)
  CompletedAt : Bool
deriving DecidableEq, Repr

/-- Lookup in the `Parts` map. -/
def partsLookup (ps : List (Nat × Bytes)) (k : Nat) : Option Bytes :=
  (ps.find? (fun p => p.1 = k)).map Prod.snd

/-- Go map insertion `Parts[k] = v`: replaces the entry when the key exists,
otherwise appends it (so the entry count matches the Go map's length). -/
def partsInsert (ps : List (Nat × Bytes)) (k : Nat) (v : Bytes) : List (Nat × Bytes) :=
  if (ps.find? (fun p => p.1 = k)).isSome then
    ps.map (fun p => if p.1 = k then (k, v) else p)
  else ps ++ [(k, v)]

/-- The server state relevant to request handling (Go `server.Server`):
the configured domain suffix (`[]` = none), the static zone, the
hash8-to-assembly map and the script chunk sets, each Go map modelled as a
function into `Option`. -/
structure ServerState where
  domain : Bytes
  records : Bytes → Nat → Option (List Record)
  fileAssemblies : Bytes → Option FileAssembly
  scriptChunks : Bytes → Option (List Bytes)

/-- Embedding of Go `(*Server).lookup`: exact domain match first, then the
wildcard key. -/
def lookup (s : ServerState) (domain : Bytes) (recordType : Nat) : List Record :=
  match s.records domain recordType with
  | some rs => rs
  | none =>
    match s.records (bytesOf "*") recordType with
    | some rs => rs
    | none => []

/-- A run of decimal digits at the head of the bytes: its value and the
remaining bytes; fails when the first byte is not a digit (the `%d` verb
needs at least one digit). -/
def scanDigits (bs : Bytes) : Option (Nat × Bytes) :=
  let ds := bs.takeWhile (fun b => decide (48 ≤ b ∧ b ≤ 57))
  if ds = [] then none
  else some (ds.foldl (fun n b => n * 10 + (b - 48)) 0, bs.drop ds.length)

/-- One `%d` verb of `fmt.Sscanf`: an optional sign followed by digits. -/
def scanInt (bs : Bytes) : Option (Int × Bytes) :=
  match bs with
  | 45 :: rest => (scanDigits rest).map (fun p => (-(p.1 : Int), p.2))
  | 43 :: rest => (scanDigits rest).map (fun p => ((p.1 : Int), p.2))
  | _ => (scanDigits bs).map (fun p => ((p.1 : Int), p.2))

/-- The verbs of `fmt.Sscanf` with format `%d.%d.%d.%d`, matched left to
right with a literal dot between consecutive verbs: the scan stops at the
first verb or dot that fails to match, keeping the integers read before it. -/
def scanIPv4 : Nat → Bytes → List Int
  | 0, _ => []
  | n + 1, bs =>
    match scanInt bs with
    | none => []
    | some (v, rest) =>
      if n = 0 then [v]
      else
        match rest with
        | b :: rest2 => if b = dot then v :: scanIPv4 n rest2 else [v]
        | [] => [v]

/-- Embedding of Go `parseIPv4`: `fmt.Sscanf(ip, "%d.%d.%d.%d", ...)` into
four `int` variables initialised to zero, so components the scan never
reaches stay zero; each parsed component is truncated to one byte as by Go
`byte(int)`. -/
def parseIPv4 (ip : Bytes) : Bytes :=
  let nums := (scanIPv4 4 ip).map (fun v => (v % 256).toNat)
  [nums.getD 0 0, nums.getD 1 0, nums.getD 2 0, nums.getD 3 0]

/-- Embedding of Go `convertToResourceRecords`: zone records become wire
records with TTL 0; records whose value does not fit their type produce no
data and are skipped. -/
def convertToResourceRecords (domain : Bytes) (records : List Record) :
    List ResourceRecord :=
  records.filterMap (fun record =>
    let d : Bytes :=
      if record.Ty = TypeA then
        match record.Value with
        | .addr ip => parseIPv4 ip
        | _ => []
      else if record.Ty = TypeTXT then
        match record.Value with
        | .txt vals =>
          vals.flatMap (fun t =>
            let t := t.take 255
            t.length :: t)
        | _ => []
      else []
    if d.length > 0 then
      some { Name := domain, Ty := record.Ty, Class := 1, TTL := 0,
             Data := d, DataLen := d.length % 65536 }
    else none)

/-- Splits a question name into labels after removing the configured domain
suffix, as the script and missing handlers do: with a configured domain the
comparison is lowercased and the suffix is mandatory; with no domain the raw
name is split. -/
def grammarLabels (domain qname : Bytes) : Option (List Bytes) :=
  if domain ≠ [] then
    let ql := toLowerBytes qname
    let dl := toLowerBytes domain
    if (dot :: dl).isSuffixOf ql then
      some ((ql.take (ql.length - (dl.length + 1))).splitOn dot)
    else none
  else some (qname.splitOn dot)

/-- Script-format recognition shared by both branches of Go
`handleScriptQuery`: last label must be `script`, the one before selects the
script, and an optional leading label is the chunk number (−1 when absent or
unparsable). -/
def scriptParts (parts : List Bytes) : Option (Bytes × Int) :=
  if parts.length < 2 then none
  else if parts.getD (parts.length - 1) [] ≠ bytesOf "script" then none
  else
    let scriptName := parts.getD (parts.length - 2) []
    if scriptName ≠ bytesOf "windows" ∧ scriptName ≠ bytesOf "linux" then none
    else
      let chunkNum : Int :=
        if parts.length ≥ 3 then (atoi (parts.getD 0 [])).getD (-1) else -1
      some (scriptName, chunkNum)

/-- A single-value TXT resource record with a length-prefixed payload, as
synthesized throughout the Go server (TTL 0, class IN). -/
def txtRecord (name payload : Bytes) : ResourceRecord :=
  let d := (payload.length % 256) :: payload
  { Name := name, Ty := TypeTXT, Class := 1, TTL := 0, Data := d, DataLen := d.length }

/-- The synthesized one-liner command of Go `handleScriptQuery` (the exact
`fmt.Sprintf` text, with the chunk count and base domain interpolated). -/
def onelinerFor (scriptName baseDomain : Bytes) (count : Nat) : Bytes :=
  if scriptName = bytesOf "windows" then
    bytesOf "[System.Text.Encoding]::UTF8.GetString([System.Convert]::FromBase64String((1.." ++
      natToDec count ++
      bytesOf "|%\x7bResolve-DnsName -ty TXT -na \"$_." ++ baseDomain ++
      bytesOf "\"|? Section -eq Answer|% Strings\x7d)))"
  else
    bytesOf "echo $(for i in $(seq 1 " ++ natToDec count ++
      bytesOf "); do dig +short $i." ++ baseDomain ++
      bytesOf " TXT | grep -oE '\"[^\"]+\"' | tr -d '\"'; done) | tr -d ' ' | base64 -d"

/-- Embedding of Go `handleScriptQuery`: TXT-only; returns the requested
chunk, or the one-liner when no chunk index is present; `none` means the
query did not match (falls through). -/
def handleScriptQuery (s : ServerState) (queryDomain : Bytes) (queryType : Nat) :
    Option (List ResourceRecord) :=
  if queryType ≠ TypeTXT then none
  else
    match grammarLabels s.domain queryDomain with
    | none => none
    | some parts =>
      match scriptParts parts with
      | none => none
      | some (scriptName, chunkNum) =>
        match s.scriptChunks scriptName with
        | none => none
        | some chunks =>
          if chunks.length = 0 then none
          else if 1 ≤ chunkNum then
            let chunkIdx := (chunkNum - 1).toNat
            if chunkIdx < chunks.length then
              some [txtRecord queryDomain (chunks.getD chunkIdx [])]
            else none
          else
            let baseDomain :=
              if s.domain ≠ [] then
                scriptName ++ dot :: bytesOf "script" ++ dot :: s.domain
              else scriptName ++ dot :: bytesOf "script"
            some [txtRecord queryDomain (onelinerFor scriptName baseDomain chunks.length)]

/-- Hash extraction of Go `handleMissingQuery`: the label immediately after
the first label equal to `missing`. -/
def missingHash (domain qname : Bytes) : Option Bytes :=
  match grammarLabels domain qname with
  | none => none
  | some parts =>
    match parts.findIdx? (fun p => p = bytesOf "missing") with
    | none => none
    | some i =>
      if i + 1 < parts.length then some (parts.getD (i + 1) []) else none

/-- Embedding of Go `handleMissingQuery`: TXT-only; for a known transfer
with known `TotalParts` it answers one TXT record per missing part number in
ascending order (an explicit empty list when none are missing); `none` means
no match / no information. -/
def handleMissingQuery (s : ServerState) (queryDomain : Bytes) (queryType : Nat) :
    Option (List ResourceRecord) :=
  if queryType ≠ TypeTXT then none
  else
    match missingHash s.domain queryDomain with
    | none => none
    | some hash8 =>
      if hash8.length ≠ 8 then none
      else
        match s.fileAssemblies hash8 with
        | none => none
        | some assembly =>
          if assembly.TotalParts ≤ 0 then none
          else
            let missingChunks := (List.range' 1 assembly.TotalParts.toNat).filter
              (fun i => (partsLookup assembly.Parts i).isNone)
            if missingChunks.length = 0 then some []
            else some (missingChunks.map (fun n => txtRecord queryDomain (natToDec n)))

/-- Index of the first label equal to `start` (the search loop shared by
the start-record paths). -/
def firstStartIdx (parts : List Bytes) : Option Nat :=
  parts.findIdx? (fun p => p = bytesOf "start")

/-- The start-marker scan of the no-domain branch of Go
`handleDynamicRecord`: the first index `i` with label `start`, `i ≥ 3` and
`i` not the last position. -/
def findQualifyingStart (parts : List Bytes) : Option Nat :=
  (List.range parts.length).find?
    (fun i => parts.getD i [] = bytesOf "start" ∧ 3 ≤ i ∧ i + 1 < parts.length)

/-- The fields announced by a start record. -/
structure StartEvt where
  filename : Bytes
  hash8 : Bytes
  totalParts : Int
  chunkSize : Int
  totalBytes : Int
deriving DecidableEq, Repr

/-- The fields carried by a data record. -/
structure DataEvt where
  hash8 : Bytes
  partNum : Nat
  dataBytes : Bytes
deriving DecidableEq, Repr

/-- Validation/decoding half of Go `handleStartRecord`: locates the first
label equal to `start` (which must have at least three labels before it and
one after), reads total-parts/chunk-size/total-bytes just before it, the
hash8 just after it, and hex-decodes the concatenated leading labels as the
filename.  All checks happen before any state change in the Go code, so the
decode separates cleanly from the map update (`applyStart`). -/
def parseStartRecord (parts : List Bytes) : Option StartEvt :=
  match firstStartIdx parts with
  | none => none
  | some startIdx =>
    if startIdx < 3 ∨ parts.length ≤ startIdx + 1 then none
    else
      let totalBytesStr := parts.getD (startIdx - 1) []
      let chunkSizeStr := parts.getD (startIdx - 2) []
      let totalPartsStr := parts.getD (startIdx - 3) []
      let filenameHex := (parts.take (startIdx - 3)).flatten
      let hash8 := parts.getD (startIdx + 1) []
      if hash8.length ≠ 8 then none
      else
        match atoi totalPartsStr with
        | none => none
        | some totalParts =>
          if totalParts ≤ 0 then none
          else
            match atoi chunkSizeStr with
            | none => none
            | some chunkSize =>
              if chunkSize ≤ 0 then none
              else
                match atoi totalBytesStr with
                | none => none
                | some totalBytes =>
                  if totalBytes < 0 then none
                  else
                    match hexDecode filenameHex with
                    | none => none
                    | some filenameBytes =>
                      some { filename := filenameBytes, hash8 := hash8,
                             totalParts := totalParts, chunkSize := chunkSize,
                             totalBytes := totalBytes }

/-- Map update half of Go `handleStartRecord`: create the assembly if
absent, otherwise overwrite its metadata. -/
def applyStart (m : Bytes → Option FileAssembly) (e : StartEvt) :
    Bytes → Option FileAssembly :=
  match m e.hash8 with
  | none =>
    fun k =>
      if k = e.hash8 then
        some { Filename := e.filename, Hash := e.hash8, TotalParts := e.totalParts,
               ChunkSize := e.chunkSize, TotalBytes := e.totalBytes,
               Parts := [], CompletedAt := false }
      else m k
  | some a =>
    fun k =>
      if k = e.hash8 then
        some { a with Filename := e.filename, TotalParts := e.totalParts,
                      ChunkSize := e.chunkSize, TotalBytes := e.totalBytes }
      else m k

/-- Validation/decoding half of Go `handleDataRecord`: last label is hash8,
second-to-last the 1-based part number, everything before is the
hex-encoded payload. -/
def parseDataRecord (parts : List Bytes) : Option DataEvt :=
  if parts.length < 3 then none
  else
    let hash8 := parts.getD (parts.length - 1) []
    let partNumStr := parts.getD (parts.length - 2) []
    let dataHex := (parts.take (parts.length - 2)).flatten
    if hash8.length ≠ 8 then none
    else
      match atoi partNumStr with
      | none => none
      | some pn =>
        if pn < 1 then none
        else
          match hexDecode dataHex with
          | none => none
          | some dataBytes =>
            some { hash8 := hash8, partNum := pn.toNat, dataBytes := dataBytes }

/-- Map update half of Go `handleDataRecord`: create a placeholder assembly
if absent (unknown totals, placeholder filename), then store the part. -/
def applyData (m : Bytes → Option FileAssembly) (e : DataEvt) :
    Bytes → Option FileAssembly :=
  let a :=
    match m e.hash8 with
    | some a => a
    | none =>
      { Filename := bytesOf "unknown_" ++ e.hash8, Hash := e.hash8,
        TotalParts := -1, ChunkSize := 0, TotalBytes := -1,
        Parts := [], CompletedAt := false }
  let a' := { a with Parts := partsInsert a.Parts e.partNum e.dataBytes }
  fun k => if k = e.hash8 then some a' else m k

/-- Which branch of Go `handleDynamicRecord` a question name reaches:
the start handler, the data handler, or neither. -/
inductive DynClass where
  | viaStart (parts : List Bytes)
  | viaData (parts : List Bytes)
  | noMatch
deriving DecidableEq, Repr

/-- Branch selection of Go `handleDynamicRecord`.  With a configured domain:
lowercase, require the domain suffix (a bare-domain query never matches),
need at least 3 labels, and try the start handler only when at least 6
labels remain and the first `start` label sits at index ≥ 3.  With no
domain: need at least 4 labels, and try the start handler on the first
`start` label at index ≥ 3 that is not the last label. -/
def classifyDynamic (domain qname : Bytes) : DynClass :=
  if domain ≠ [] then
    let ql := toLowerBytes qname
    let dl := toLowerBytes domain
    if ¬ (dot :: dl).isSuffixOf ql then .noMatch
    else
      let parts := (ql.take (ql.length - (dl.length + 1))).splitOn dot
      if parts.length < 3 then .noMatch
      else if 6 ≤ parts.length then
        match firstStartIdx parts with
        | some i => if 3 ≤ i then .viaStart parts else .viaData parts
        | none => .viaData parts
      else .viaData parts
  else
    let parts := qname.splitOn dot
    if parts.length < 4 then .noMatch
    else
      match findQualifyingStart parts with
      | some _ => .viaStart parts
      | none => .viaData parts

/-- Embedding of Go `handleDynamicRecord`: returns whether the name matched
(and mutated state) together with the updated server state. -/
def handleDynamicRecord (s : ServerState) (qname : Bytes) : Bool × ServerState :=
  match classifyDynamic s.domain qname with
  | .viaStart parts =>
    match parseStartRecord parts with
    | some e => (true, { s with fileAssemblies := applyStart s.fileAssemblies e })
    | none => (false, s)
  | .viaData parts =>
    match parseDataRecord parts with
    | some e => (true, { s with fileAssemblies := applyData s.fileAssemblies e })
    | none => (false, s)
  | .noMatch => (false, s)

/-- Embedding of Go `sanitizeFilename`'s `strings.ReplaceAll`
(left-to-right, non-overlapping). -/
def replaceAll (pat rep : Bytes) : Bytes → Bytes
  | [] => []
  | b :: rest =>
    if h : pat ≠ [] ∧ pat.isPrefixOf (b :: rest) then
      rep ++ replaceAll pat rep ((b :: rest).drop pat.length)
    else b :: replaceAll pat rep rest
termination_by bs => bs.length
decreasing_by
  · simp only [List.length_drop, List.length_cons]
    have : pat.length ≠ 0 := by
      intro hlen
      exact h.1 (List.length_eq_zero.mp hlen)
    omega
  · simp

/-- Embedding of Go `sanitizeFilename`. -/
def sanitizeFilename (filename : Bytes) : Bytes :=
  let f := replaceAll (bytesOf "/") (bytesOf "_") filename
  let f := replaceAll (bytesOf "\\") (bytesOf "_") f
  let f := replaceAll (bytesOf "..") (bytesOf "_") f
  let f := replaceAll [0] [] f
  if f.length > 255 then f.take 255 else f

/-- Concatenation loop of Go `assembleAndSaveFile`: parts 1..TotalParts in
order, `none` as soon as one is missing. -/
def assembleFile (a : FileAssembly) : Option Bytes :=
  (List.range' 1 a.TotalParts.toNat).foldl
    (fun acc i =>
      match acc, partsLookup a.Parts i with
      | some d, some p => some (d ++ p)
      | _, _ => none)
    (some [])

/-- Embedding of Go `assembleAndSaveFile` (minus actual disk I/O): on
success, the sanitized output filename, the persisted bytes, and the
assembly with its completion timestamp set; `none` when a part is missing
(nothing written, assembly left pending). -/
def assembleAndSaveFile (a : FileAssembly) : Option (Bytes × Bytes × FileAssembly) :=
  match assembleFile a with
  | none => none
  | some fileData =>
    let safe := sanitizeFilename a.Filename
    let safe := if safe = [] then bytesOf "file_" ++ a.Hash else safe
    some (safe, fileData, { a with CompletedAt := true })

/-- An event recorded into the statistics collaborator. -/
inductive StatEvent where
  | query (domain : Bytes) (qtype : Nat)
  | response (success : Bool)
deriving DecidableEq, Repr

/-- The single `OK` acknowledgement TXT record of Go `handleRequest`. -/
def okRecord (name : Bytes) : ResourceRecord :=
  let okData := 2 :: bytesOf "OK"
  { Name := name, Ty := TypeTXT, Class := 1, TTL := 0,
    Data := okData, DataLen := okData.length }

/-- One iteration of the question loop in Go `handleRequest`: script, then
missing, then dynamic (with the TXT-only `OK` acknowledgement), then the
static zone.  Returns the updated state, this question's answer records and
its success flag. -/
def processQuestion (s : ServerState) (q : Question) :
    ServerState × List ResourceRecord × Bool :=
  match handleScriptQuery s q.Name q.Ty with
  | some answers => (s, answers, true)
  | none =>
    match handleMissingQuery s q.Name q.Ty with
    | some answers => (s, answers, true)
    | none =>
      match handleDynamicRecord s q.Name with
      | (true, s') =>
        (s', if q.Ty = TypeTXT then [okRecord q.Name] else [], true)
      | (false, _) =>
        let records := lookup s q.Name q.Ty
        if records.length > 0 then
          (s, convertToResourceRecords q.Name records, true)
        else (s, [], false)

/-- The question loop of Go `handleRequest`: threads the state through the
questions, concatenates all answers, ORs the success flags, and records one
query statistic per question. -/
def processQuestions (s : ServerState) :
    List Question → ServerState × List ResourceRecord × Bool × List StatEvent
  | [] => (s, [], false, [])
  | q :: qs =>
    let (s1, ans, succ) := processQuestion s q
    let (s2, ansRest, succRest, evs) := processQuestions s1 qs
    (s2, ans ++ ansRest, succ || succRest, StatEvent.query q.Name q.Ty :: evs)

/-- Embedding of Go `handleRequest` (minus socket I/O): parse the packet
(a parse failure is a silent drop: no response, no statistics, state
unchanged), process every question, build one merged response — NoError
when at least one answer record exists, NXDOMAIN otherwise — serialize it,
and record the response statistic.  Returns the new state, the response
bytes sent (if any) and the statistics events in order. -/
def handleRequest (s : ServerState) (data : Bytes) :
    ServerState × Option Bytes × List StatEvent :=
  match parseMessage data with
  | none => (s, none, [])
  | some query =>
    let (s', allAnswers, success, events) := processQuestions s query.Questions
    let response :=
      if allAnswers.length > 0 then buildResponse query allAnswers RcodeNoError
      else buildResponse query [] RcodeNXDomain
    match toBytes response with
    | none => (s', none, events)
    | some rb => (s', some rb, events ++ [StatEvent.response success])

/-- A DNS name the builder can encode and the parser can decode back: empty,
or dot-separated labels that are all non-empty and at most 63 bytes. -/
def validName (name : Bytes) : Prop :=
  name = [] ∨ ∀ l ∈ name.splitOn dot, l ≠ [] ∧ l.length ≤ 63

instance (name : Bytes) : Decidable (validName name) := by
  unfold validName
  infer_instance

/-- A well-formed message value for the round-trip statement: 16-bit fields
in range, section counts matching section lengths, and well-formed names. -/
def ValidMsg (m : Message) : Prop :=
  m.Header.ID < 65536 ∧ m.Header.Flags < 65536 ∧
  m.Header.QdCount = m.Questions.length ∧ m.Header.QdCount < 65536 ∧
  m.Header.AnCount = m.Answers.length ∧ m.Header.AnCount < 65536 ∧
  m.Header.NsCount < 65536 ∧ m.Header.ArCount < 65536 ∧
  (∀ q ∈ m.Questions, validName q.Name ∧ q.Ty < 65536 ∧ q.Class < 65536) ∧
  (∀ r ∈ m.Answers, validName r.Name ∧ r.Ty < 65536 ∧ r.Class < 65536 ∧
    r.DataLen = r.Data.length)

instance (m : Message) : Decidable (ValidMsg m) := by
  unfold ValidMsg
  infer_instance

/-- The name accumulated by the decode loop after consuming the labels `L`
on top of an already-accumulated `acc`. -/
def joinAcc (acc : Bytes) : List Bytes → Bytes
  | [] => acc
  | l :: ls => joinAcc (if acc = [] then l else acc ++ dot :: l) ls

/-- A server with no configured domain, an empty zone, no assemblies and no
loaded scripts (the state `NewServer` produces when no script file is found). -/
def emptyState : ServerState :=
  { domain := [], records := fun _ _ => none,
    fileAssemblies := fun _ => none, scriptChunks := fun _ => none }

/-- The ascending list of missing part numbers computed by
`handleMissingQuery` for one assembly. -/
def missingList (a : FileAssembly) : List Nat :=
  (List.range' 1 a.TotalParts.toNat).filter
    (fun i => (partsLookup a.Parts i).isNone)

/-- The folding step of `assembleFile`. -/
def assembleStep (ps : List (Nat × Bytes)) (acc : Option Bytes) (i : Nat) : Option Bytes :=
  match acc, partsLookup ps i with
  | some d, some p => some (d ++ p)
  | _, _ => none

/-- The part-number invariant that actually holds: every stored part key is
at least 1. -/
def PartsWF (s : ServerState) : Prop :=
  ∀ H a, s.fileAssemblies H = some a → ∀ p ∈ a.Parts, 1 ≤ p.1

/-- The server state after a start record announcing 3 total parts followed
by a data record for part number 100 of the same transfer. -/
def c8FinalState : ServerState :=
  (processQuestions emptyState
    [{ Name := bytesOf "61.3.4.10.start.aaaa1111", Ty := TypeTXT, Class := 1 },
     { Name := bytesOf "41.42.100.aaaa1111", Ty := TypeTXT, Class := 1 }]).1

/-- A valid message carrying one answer record and no questions (fixture). -/
def c3Msg : Message :=
  { Header := { ID := 1, Flags := 0, QdCount := 0, AnCount := 1,
                NsCount := 0, ArCount := 0 },
    Questions := [],
    Answers := [{ Name := [], Ty := 16, Class := 1, TTL := 0,
                  DataLen := 0, Data := [] }] }

/-- A valid query message with one TXT question and no answers (fixture). -/
def c3WitnessMsg : Message :=
  { Header := { ID := 513, Flags := 256, QdCount := 1, AnCount := 0,
                NsCount := 0, ArCount := 0 },
    Questions := [{ Name := bytesOf "abc.de", Ty := TypeTXT, Class := 1 }],
    Answers := [] }

/-- An in-progress three-part transfer holding only part 2 (fixture). -/
def c1Assembly : FileAssembly :=
  { Filename := bytesOf "f", Hash := bytesOf "aaaa1111", TotalParts := 3,
    ChunkSize := 4, TotalBytes := 12, Parts := [(2, bytesOf "x")],
    CompletedAt := false }

/-- A server knowing only the in-progress transfer `aaaa1111` (fixture). -/
def c1State : ServerState :=
  { emptyState with fileAssemblies :=
      fun k => if k = bytesOf "aaaa1111" then some c1Assembly else none }

/-- A completed single-part transfer (fixture). -/
def c7Assembly : FileAssembly :=
  { Filename := bytesOf "a.txt", Hash := bytesOf "aaaa1111", TotalParts := 1,
    ChunkSize := 4, TotalBytes := 2, Parts := [(1, bytesOf "hi")],
    CompletedAt := true }

/-- A server knowing the completed transfer `aaaa1111` (fixture). -/
def c7KnownState : ServerState :=
  { emptyState with fileAssemblies :=
      fun k => if k = bytesOf "aaaa1111" then some c7Assembly else none }

/-- The missing-chunks question name for `aaaa1111` (fixture). -/
def c7Name : Bytes := bytesOf "missing.aaaa1111"

/-- The wire bytes of a single-question TXT query for `c7Name` (fixture). -/
def c7Packet : Bytes :=
  (toBytes { Header := { ID := 7, Flags := 0, QdCount := 1, AnCount := 0,
                         NsCount := 0, ArCount := 0 },
             Questions := [{ Name := c7Name, Ty := TypeTXT, Class := 1 }],
             Answers := [] }).getD []

/-- A server with a three-chunk `linux` script loaded (fixture). -/
def c10State : ServerState :=
  { emptyState with scriptChunks :=
      fun k =>
        if k = bytesOf "linux" then some [bytesOf "QUFB", bytesOf "QkJC", bytesOf "Q0ND"]
        else none }

/-- A name matching both the script grammar (chunk 3 of the linux script)
and the start grammar (fixture). -/
def c10Name : Bytes := bytesOf "3.4.10.start.deadbeef.linux.script"

theorem assembleFile_eq_foldl (a : FileAssembly) :
    assembleFile a =
      (List.range' 1 a.TotalParts.toNat).foldl (assembleStep a.Parts) (some []) := rfl

theorem assembleFold_none_acc (ps : List (Nat × Bytes)) (idxs : List Nat) :
    idxs.foldl (assembleStep ps) none = none := by
  induction idxs with
  | nil => rfl
  | cons j js ih =>
    simp only [List.foldl_cons]
    have hstep : assembleStep ps none j = none := by
      unfold assembleStep
      cases partsLookup ps j <;> rfl
    rw [hstep, ih]

theorem assembleFold_some (ps : List (Nat × Bytes)) (idxs : List Nat) (acc : Bytes)
    (h : ∀ i ∈ idxs, (partsLookup ps i).isSome) :
    idxs.foldl (assembleStep ps) (some acc) =
      some (acc ++ (idxs.map (fun i => (partsLookup ps i).getD [])).flatten) := by
  induction idxs generalizing acc with
  | nil => simp
  | cons j js ih =>
    obtain ⟨p, hp⟩ := Option.isSome_iff_exists.mp (h j (List.mem_cons_self j js))
    have hstep : assembleStep ps (some acc) j = some (acc ++ p) := by
      unfold assembleStep
      rw [hp]
    simp only [List.foldl_cons, hstep]
    rw [ih (acc ++ p) (fun i hi => h i (List.mem_cons_of_mem _ hi))]
    simp [hp, List.append_assoc]

theorem assembleFold_none (ps : List (Nat × Bytes)) (idxs : List Nat)
    (acc : Option Bytes) (h : ∃ i ∈ idxs, partsLookup ps i = none) :
    idxs.foldl (assembleStep ps) acc = none := by
  induction idxs generalizing acc with
  | nil => obtain ⟨i, hi, _⟩ := h; cases hi
  | cons j js ih =>
    simp only [List.foldl_cons]
    cases acc with
    | none =>
      have hstep : assembleStep ps none j = none := by
        unfold assembleStep
        cases partsLookup ps j <;> rfl
      rw [hstep, assembleFold_none_acc]
    | some d =>
      cases hj : partsLookup ps j with
      | none =>
        have hstep : assembleStep ps (some d) j = none := by
          unfold assembleStep
          rw [hj]
        rw [hstep, assembleFold_none_acc]
      | some p =>
        obtain ⟨i, hi, hnone⟩ := h
        rcases List.mem_cons.mp hi with rfl | hmem
        · rw [hj] at hnone; cases hnone
        · exact ih _ ⟨i, hmem, hnone⟩

/-- C2: for a transfer with known TotalParts = T > 0, if every part 1..T is
present then the assembly step persists exactly the in-order concatenation
Parts[1] ++ … ++ Parts[T] and marks the assembly complete; if any part in
1..T is absent, nothing is written and the assembly is left unchanged
(pending). -/
theorem C2_assembled_file_concatenation (a : FileAssembly) (T : Nat)
    (hT : a.TotalParts = (T : Int)) (hpos : 0 < T) :
    ((∀ i, 1 ≤ i → i ≤ T → (partsLookup a.Parts i).isSome) →
      ∃ fn, assembleAndSaveFile a =
        some (fn,
          ((List.range' 1 T).map (fun i => (partsLookup a.Parts i).getD [])).flatten,
          { a with CompletedAt := true })) ∧
    ((∃ i, 1 ≤ i ∧ i ≤ T ∧ partsLookup a.Parts i = none) →
      assembleAndSaveFile a = none) := by
  have htn : a.TotalParts.toNat = T := by rw [hT]; exact Int.toNat_natCast T
  constructor
  · intro hall
    refine ⟨if sanitizeFilename a.Filename = [] then bytesOf "file_" ++ a.Hash
            else sanitizeFilename a.Filename, ?_⟩
    unfold assembleAndSaveFile
    rw [assembleFile_eq_foldl, htn,
      assembleFold_some a.Parts _ [] (fun i hi => by
        rw [List.mem_range'_1] at hi
        exact hall i hi.1 (by omega))]
    simp
  · rintro ⟨i, h1, h2, hnone⟩
    unfold assembleAndSaveFile
    rw [assembleFile_eq_foldl, htn,
      assembleFold_none a.Parts _ _ ⟨i, by rw [List.mem_range'_1]; omega, hnone⟩]

/-- Witness for C2 at a concrete two-part assembly: with both parts present
the saved bytes are part 1 followed by part 2; with part 2 removed nothing
is saved. -/
theorem C2_assembled_file_concatenation_witness :
    (∃ fn, assembleAndSaveFile
        { Filename := bytesOf "f", Hash := bytesOf "aaaa1111", TotalParts := 2,
          ChunkSize := 1, TotalBytes := 2, Parts := [(1, [10]), (2, [20])],
          CompletedAt := false } =
      some (fn,
        ((List.range' 1 2).map (fun i =>
          (partsLookup [(1, [10]), (2, [20])] i).getD [])).flatten,
        { Filename := bytesOf "f", Hash := bytesOf "aaaa1111", TotalParts := 2,
          ChunkSize := 1, TotalBytes := 2, Parts := [(1, [10]), (2, [20])],
          CompletedAt := true })) ∧
    assembleAndSaveFile
        { Filename := bytesOf "f", Hash := bytesOf "aaaa1111", TotalParts := 2,
          ChunkSize := 1, TotalBytes := 2, Parts := [(1, [10])],
          CompletedAt := false } = none := by
  constructor
  · exact (C2_assembled_file_concatenation _ 2 rfl (by omega)).1
      (fun i h1 h2 => by interval_cases i <;> decide)
  · exact (C2_assembled_file_concatenation _ 2 rfl (by omega)).2
      ⟨2, by omega, by omega, by decide⟩

theorem mem_partsInsert (ps : List (Nat × Bytes)) (k : Nat) (v : Bytes)
    (p : Nat × Bytes) (hp : p ∈ partsInsert ps k v) : p.1 = k ∨ p ∈ ps := by
  unfold partsInsert at hp
  split at hp
  · obtain ⟨q, hq, hqe⟩ := List.mem_map.mp hp
    by_cases hqk : q.1 = k
    · rw [if_pos hqk] at hqe
      left
      rw [← hqe]
    · rw [if_neg hqk] at hqe
      right
      rwa [← hqe]
  · rcases List.mem_append.mp hp with hmem | hsing
    · right
      exact hmem
    · left
      rw [List.mem_singleton.mp hsing]

theorem parseDataRecord_partNum_pos (parts : List Bytes) (e : DataEvt)
    (h : parseDataRecord parts = some e) : 1 ≤ e.partNum := by
  unfold parseDataRecord at h
  dsimp only at h
  split at h
  · cases h
  · split at h
    · cases h
    · split at h
      · cases h
      next pn hpn =>
        split at h
        · cases h
        next hge =>
          split at h
          · cases h
          next db hdb =>
            cases h
            dsimp only
            omega

theorem applyStart_apply_ne (m : Bytes → Option FileAssembly) (e : StartEvt)
    (k : Bytes) (hk : ¬ k = e.hash8) : applyStart m e k = m k := by
  unfold applyStart
  cases m e.hash8 <;> simp [hk]

theorem applyStart_apply_self (m : Bytes → Option FileAssembly) (e : StartEvt) :
    applyStart m e e.hash8 =
      some (match m e.hash8 with
        | none =>
          { Filename := e.filename, Hash := e.hash8, TotalParts := e.totalParts,
            ChunkSize := e.chunkSize, TotalBytes := e.totalBytes,
            Parts := [], CompletedAt := false }
        | some a =>
          { a with Filename := e.filename, TotalParts := e.totalParts,
                   ChunkSize := e.chunkSize, TotalBytes := e.totalBytes }) := by
  unfold applyStart
  cases m e.hash8 <;> simp

theorem applyData_apply_ne (m : Bytes → Option FileAssembly) (e : DataEvt)
    (k : Bytes) (hk : ¬ k = e.hash8) : applyData m e k = m k := by
  unfold applyData
  simp [hk]

theorem applyData_apply_self (m : Bytes → Option FileAssembly) (e : DataEvt) :
    applyData m e e.hash8 =
      some (let a :=
        match m e.hash8 with
        | some a => a
        | none =>
          { Filename := bytesOf "unknown_" ++ e.hash8, Hash := e.hash8,
            TotalParts := -1, ChunkSize := 0, TotalBytes := -1,
            Parts := [], CompletedAt := false }
        { a with Parts := partsInsert a.Parts e.partNum e.dataBytes }) := by
  unfold applyData
  simp

theorem applyStart_partsWF (m : Bytes → Option FileAssembly) (e : StartEvt)
    (hm : ∀ H a, m H = some a → ∀ p ∈ a.Parts, 1 ≤ p.1) :
    ∀ H a, applyStart m e H = some a → ∀ p ∈ a.Parts, 1 ≤ p.1 := by
  intro H a ha p hp
  by_cases hH : H = e.hash8
  · subst hH
    rw [applyStart_apply_self] at ha
    cases hold : m e.hash8 with
    | none =>
      rw [hold] at ha
      cases ha
      cases hp
    | some a0 =>
      rw [hold] at ha
      cases ha
      exact hm e.hash8 a0 hold p hp
  · rw [applyStart_apply_ne m e H hH] at ha
    exact hm H a ha p hp

theorem applyData_partsWF (m : Bytes → Option FileAssembly) (e : DataEvt)
    (he : 1 ≤ e.partNum)
    (hm : ∀ H a, m H = some a → ∀ p ∈ a.Parts, 1 ≤ p.1) :
    ∀ H a, applyData m e H = some a → ∀ p ∈ a.Parts, 1 ≤ p.1 := by
  intro H a ha p hp
  by_cases hH : H = e.hash8
  · subst hH
    rw [applyData_apply_self] at ha
    cases ha
    rcases mem_partsInsert _ _ _ p hp with hk | hold
    · omega
    · cases holdm : m e.hash8 with
      | none =>
        rw [holdm] at hold
        cases hold
      | some a0 =>
        rw [holdm] at hold
        exact hm e.hash8 a0 holdm p hold
  · rw [applyData_apply_ne m e H hH] at ha
    exact hm H a ha p hp

theorem handleDynamicRecord_partsWF (s : ServerState) (n : Bytes)
    (hs : PartsWF s) : PartsWF (handleDynamicRecord s n).2 := by
  unfold handleDynamicRecord
  cases classifyDynamic s.domain n with
  | noMatch => exact hs
  | viaStart parts =>
    simp only
    cases hparse : parseStartRecord parts with
    | none => exact hs
    | some e =>
      simp only
      exact applyStart_partsWF s.fileAssemblies e hs
  | viaData parts =>
    simp only
    cases hparse : parseDataRecord parts with
    | none => exact hs
    | some e =>
      simp only
      exact applyData_partsWF s.fileAssemblies e
        (parseDataRecord_partNum_pos parts e hparse) hs

theorem processQuestion_partsWF (s : ServerState) (q : Question)
    (hs : PartsWF s) : PartsWF (processQuestion s q).1 := by
  unfold processQuestion
  cases handleScriptQuery s q.Name q.Ty with
  | some answers => exact hs
  | none =>
    simp only
    cases handleMissingQuery s q.Name q.Ty with
    | some answers => exact hs
    | none =>
      simp only
      have hdyn := handleDynamicRecord_partsWF s q.Name hs
      cases hd : handleDynamicRecord s q.Name with
      | mk b s' =>
        rw [hd] at hdyn
        cases b
        · simp only
          split
          · exact hs
          · exact hs
        · exact hdyn

/-- C8 (amended): every reachable assembly state — the initial empty map
followed by any sequence of processed questions — keeps all stored part
numbers ≥ 1; the upper bound by TotalParts claimed in the spec is NOT
enforced (see the counterexample). -/
theorem C8_part_keys_lower_bound (s : ServerState) (hs : PartsWF s)
    (qs : List Question) : PartsWF (processQuestions s qs).1 := by
  induction qs generalizing s with
  | nil => exact hs
  | cons q rest ih =>
    unfold processQuestions
    exact ih (processQuestion s q).1 (processQuestion_partsWF s q hs)

/-- Witness for C8 at the empty initial state and a concrete data query. -/
theorem C8_part_keys_lower_bound_witness :
    PartsWF (processQuestions emptyState
      [{ Name := bytesOf "41.42.7.aaaa1111", Ty := TypeTXT, Class := 1 }]).1 :=
  C8_part_keys_lower_bound emptyState
    (fun H a ha => by simp [emptyState] at ha) _

/-- Counterexample to C8 as stated: after a start record with TotalParts = 3
and a data record for part 100, the assembly stores part key 100 > 3 — the
code never bounds part numbers by TotalParts. -/
theorem C8_counterexample :
    c8FinalState.fileAssemblies (bytesOf "aaaa1111") =
      some { Filename := bytesOf "a", Hash := bytesOf "aaaa1111", TotalParts := 3,
             ChunkSize := 4, TotalBytes := 10, Parts := [(100, bytesOf "AB")],
             CompletedAt := false } := by decide

/-- Counterexample to C5 as stated: with no configured domain, the spec's
3-label example name is NOT classified as a data record — the no-domain
branch of `handleDynamicRecord` requires at least 4 labels, so the handler
reports no match and leaves the state unchanged. -/
theorem C5_counterexample :
    handleDynamicRecord emptyState (bytesOf "48656c6c6f.1.deadbeef") =
      (false, emptyState) := by
  rfl

/-- C5 (amended): with no domain suffix configured the data grammar needs at
least FOUR labels.  Any name with ≥ 4 labels, no qualifying `start` label,
an 8-character last label, a part number ≥ 1 in the second-to-last label and
valid hex in the leading labels is classified as a data record and stores
that part; the spec's example payload must be split across two labels, as in
`4865.6c6c6f.1.deadbeef`, to match. -/
theorem C5_data_record_needs_four_labels (s : ServerState) (qname : Bytes)
    (hdom : s.domain = [])
    (h4 : 4 ≤ (qname.splitOn dot).length)
    (hnostart : findQualifyingStart (qname.splitOn dot) = none)
    (e : DataEvt) (hparse : parseDataRecord (qname.splitOn dot) = some e) :
    handleDynamicRecord s qname =
      (true, { s with fileAssemblies := applyData s.fileAssemblies e }) := by
  have hclass : classifyDynamic s.domain qname = DynClass.viaData (qname.splitOn dot) := by
    rw [hdom]
    unfold classifyDynamic
    rw [if_neg (by simp)]
    dsimp only
    rw [if_neg (by omega), hnostart]
  unfold handleDynamicRecord
  rw [hclass]
  simp only [hparse]

/-- Witness for C5 at the amended example `4865.6c6c6f.1.deadbeef`: hash8
`deadbeef`, part 1, payload `Hello`. -/
theorem C5_data_record_needs_four_labels_witness :
    parseDataRecord ((bytesOf "4865.6c6c6f.1.deadbeef").splitOn dot) =
      some { hash8 := bytesOf "deadbeef", partNum := 1, dataBytes := bytesOf "Hello" } ∧
    handleDynamicRecord emptyState (bytesOf "4865.6c6c6f.1.deadbeef") =
      (true, { emptyState with fileAssemblies :=
        (applyData emptyState.fileAssemblies ⟨bytesOf "deadbeef", 1, bytesOf "Hello"⟩) }) :=
  ⟨by decide,
   C5_data_record_needs_four_labels emptyState _ rfl (by decide) (by decide) _ (by decide)⟩

/-- Counterexample to C6 as stated: with only THREE labels before `start`
the name `3.4.10.start.deadbeef` DOES match the start grammar — the handler
reports a match and creates an assembly with an empty filename,
TotalParts 3, ChunkSize 4 and TotalBytes 10. -/
theorem C6_counterexample :
    (handleDynamicRecord emptyState (bytesOf "3.4.10.start.deadbeef")).1 = true ∧
    (handleDynamicRecord emptyState (bytesOf "3.4.10.start.deadbeef")).2.fileAssemblies
        (bytesOf "deadbeef") =
      some { Filename := [], Hash := bytesOf "deadbeef", TotalParts := 3,
             ChunkSize := 4, TotalBytes := 10, Parts := [], CompletedAt := false } := by
  constructor
  · decide
  · decide

/-- C6 (amended): a name matches the start grammar only if its first `start`
label has at least THREE preceding labels (total-parts, chunk-size,
total-bytes; the filename-hex labels before them may be absent, yielding an
empty filename) and is immediately followed by an 8-character hash8 label. -/
theorem C6_start_needs_three_preceding_labels (parts : List Bytes) (e : StartEvt)
    (h : parseStartRecord parts = some e) :
    ∃ i, firstStartIdx parts = some i ∧ 3 ≤ i ∧ i + 1 < parts.length ∧
      parts.getD i [] = bytesOf "start" ∧
      e.hash8 = parts.getD (i + 1) [] ∧ e.hash8.length = 8 ∧
      hexDecode ((parts.take (i - 3)).flatten) = some e.filename := by
  unfold parseStartRecord at h
  cases hfind : firstStartIdx parts with
  | none =>
    rw [hfind] at h
    cases h
  | some i =>
    rw [hfind] at h
    dsimp only at h
    have hstart : parts.getD i [] = bytesOf "start" := by
      unfold firstStartIdx at hfind
      obtain ⟨hil, hpi, -⟩ := List.findIdx?_eq_some_iff_getElem.mp hfind
      rw [List.getD_eq_getElem?_getD, List.getElem?_eq_getElem hil]
      simpa using hpi
    by_cases hcond : i < 3 ∨ parts.length ≤ i + 1
    · rw [if_pos hcond] at h
      cases h
    · rw [if_neg hcond] at h
      push_neg at hcond
      obtain ⟨h3, hlen⟩ := hcond
      split at h
      · cases h
      next hh8 =>
        split at h
        · cases h
        next tp htp =>
          split at h
          · cases h
          next htpge =>
            split at h
            · cases h
            next cs hcs =>
              split at h
              · cases h
              next hcsge =>
                split at h
                · cases h
                next tb htb =>
                  split at h
                  · cases h
                  next htbge =>
                    split at h
                    · cases h
                    next fn hfn =>
                      cases h
                      exact ⟨i, rfl, by omega, by omega, hstart, rfl,
                        by simpa using hh8, hfn⟩

/-- Witness for C6 at `3.4.10.start.deadbeef`: the start grammar matches
with exactly three labels before `start` and an empty filename. -/
theorem C6_start_needs_three_preceding_labels_witness :
    ∃ i, firstStartIdx ((bytesOf "3.4.10.start.deadbeef").splitOn dot) = some i ∧
      3 ≤ i ∧ i + 1 < ((bytesOf "3.4.10.start.deadbeef").splitOn dot).length ∧
      ((bytesOf "3.4.10.start.deadbeef").splitOn dot).getD i [] = bytesOf "start" ∧
      (bytesOf "deadbeef" : Bytes) =
        ((bytesOf "3.4.10.start.deadbeef").splitOn dot).getD (i + 1) [] ∧
      (bytesOf "deadbeef" : Bytes).length = 8 ∧
      hexDecode ((((bytesOf "3.4.10.start.deadbeef").splitOn dot).take (i - 3)).flatten) =
        some [] :=
  C6_start_needs_three_preceding_labels _
    { filename := [], hash8 := bytesOf "deadbeef", totalParts := 3,
      chunkSize := 4, totalBytes := 10 }
    (by decide)

/-- C1: for a TXT missing-chunks query naming hash8 H: if H is unknown or
its TotalParts is not positive the handler reports no match; otherwise it
answers exactly the part numbers of 1..TotalParts absent from Parts, one
TXT record per number, in strictly ascending order without duplicates. -/
theorem C1_missing_query_exact (s : ServerState) (qname H : Bytes)
    (hH : missingHash s.domain qname = some H) (hlen : H.length = 8) :
    (s.fileAssemblies H = none → handleMissingQuery s qname TypeTXT = none) ∧
    (∀ a, s.fileAssemblies H = some a → a.TotalParts ≤ 0 →
      handleMissingQuery s qname TypeTXT = none) ∧
    (∀ a, s.fileAssemblies H = some a → 0 < a.TotalParts →
      handleMissingQuery s qname TypeTXT =
        some ((missingList a).map (fun n => txtRecord qname (natToDec n))) ∧
      List.Pairwise (· < ·) (missingList a) ∧
      (missingList a).Nodup ∧
      (∀ i : Nat, i ∈ missingList a ↔
        1 ≤ i ∧ i ≤ a.TotalParts.toNat ∧ partsLookup a.Parts i = none)) := by
  have hred : handleMissingQuery s qname TypeTXT =
      (match s.fileAssemblies H with
       | none => none
       | some assembly =>
         if assembly.TotalParts ≤ 0 then none
         else
           if (missingList assembly).length = 0 then some []
           else some ((missingList assembly).map
             (fun n => txtRecord qname (natToDec n)))) := by
    unfold handleMissingQuery
    rw [if_neg (by simp), hH]
    dsimp only
    rw [if_neg (by simp [hlen])]
    rfl
  refine ⟨?_, ?_, ?_⟩
  · intro hnone
    rw [hred, hnone]
  · intro a ha hle
    rw [hred, ha]
    dsimp only
    rw [if_pos hle]
  · intro a ha hgt
    have hpw : List.Pairwise (· < ·) (missingList a) :=
      List.Pairwise.filter _ (List.pairwise_lt_range' 1 a.TotalParts.toNat)
    refine ⟨?_, hpw, hpw.imp (fun h => Nat.ne_of_lt h), ?_⟩
    · rw [hred, ha]
      dsimp only
      rw [if_neg (by omega)]
      split
      next h0 =>
        rw [List.length_eq_zero.mp h0]
        rfl
      next h0 => rfl
    · intro i
      simp only [missingList, List.mem_filter, List.mem_range'_1,
        Option.isNone_iff_eq_none]
      constructor
      · rintro ⟨⟨h1, h2⟩, h3⟩
        exact ⟨h1, by omega, h3⟩
      · rintro ⟨h1, h2, h3⟩
        exact ⟨⟨h1, by omega⟩, h3⟩

/-- Witness for C1: with parts {2} of 3 received, the answer is the records
for exactly [1, 3]. -/
theorem C1_missing_query_exact_witness :
    handleMissingQuery c1State (bytesOf "1.missing.aaaa1111") TypeTXT =
      some ((missingList c1Assembly).map
        (fun n => txtRecord (bytesOf "1.missing.aaaa1111") (natToDec n))) ∧
    missingList c1Assembly = [1, 3] :=
  ⟨((C1_missing_query_exact c1State (bytesOf "1.missing.aaaa1111")
      (bytesOf "aaaa1111") (by decide) (by decide)).2.2
      c1Assembly (by decide) (by decide)).1, by decide⟩

/-- C7 (code bug): the handler internally distinguishes a completed
transfer (explicit empty record list) from an unknown hash8 (no match), but
`handleRequest` maps both to the same NXDOMAIN wire response with zero
answers, so the two cases are NOT distinguishable in the response sent on
the wire, contradicting the code's own comment ("return empty response
(not NXDOMAIN)"). -/
theorem C7_complete_vs_unknown_indistinguishable :
    handleMissingQuery c7KnownState c7Name TypeTXT = some [] ∧
    handleMissingQuery emptyState c7Name TypeTXT = none ∧
    (handleRequest c7KnownState c7Packet).2.1 = (handleRequest emptyState c7Packet).2.1 ∧
    ((handleRequest c7KnownState c7Packet).2.1.getD []).getD 3 0 = RcodeNXDomain := by
  refine ⟨by decide, by decide, by decide, by decide⟩

theorem handleDynamicRecord_false_state (s : ServerState) (n : Bytes)
    (h : (handleDynamicRecord s n).1 = false) : (handleDynamicRecord s n).2 = s := by
  revert h
  unfold handleDynamicRecord
  cases classifyDynamic s.domain n with
  | noMatch => intro h; rfl
  | viaStart parts =>
    simp only
    cases parseStartRecord parts with
    | none => intro h; rfl
    | some e => intro h; cases h
  | viaData parts =>
    simp only
    cases parseDataRecord parts with
    | none => intro h; rfl
    | some e => intro h; cases h

/-- C10 (amended): the script and missing grammars are evaluated only for
TXT queries; for a name that matches neither of them (for TXT), the state
change of processing a question is independent of the query type — it is
exactly the dynamic handler's effect, computed from the name alone — and
when the dynamic grammar matches, the single `OK` TXT acknowledgement is
emitted iff the question type is TXT.  (As stated the claim fails for names
that also match the script or missing grammar, which pre-empt the dynamic
handler for TXT queries; see the counterexample.) -/
theorem C10_name_only_classification (s : ServerState) (name : Bytes) (t : Nat)
    (hs : handleScriptQuery s name TypeTXT = none)
    (hm : handleMissingQuery s name TypeTXT = none) :
    (∀ u, u ≠ TypeTXT → handleScriptQuery s name u = none ∧
      handleMissingQuery s name u = none) ∧
    (processQuestion s { Name := name, Ty := t, Class := 1 }).1 =
      (handleDynamicRecord s name).2 ∧
    ((handleDynamicRecord s name).1 = true →
      (processQuestion s { Name := name, Ty := t, Class := 1 }).2.1 =
        if t = TypeTXT then [okRecord name] else []) := by
  have hscript : ∀ u, u ≠ TypeTXT → handleScriptQuery s name u = none := by
    intro u hu
    unfold handleScriptQuery
    rw [if_pos hu]
  have hmissing : ∀ u, u ≠ TypeTXT → handleMissingQuery s name u = none := by
    intro u hu
    unfold handleMissingQuery
    rw [if_pos hu]
  have hs' : handleScriptQuery s name t = none := by
    by_cases ht : t = TypeTXT
    · rw [ht]; exact hs
    · exact hscript t ht
  have hm' : handleMissingQuery s name t = none := by
    by_cases ht : t = TypeTXT
    · rw [ht]; exact hm
    · exact hmissing t ht
  refine ⟨fun u hu => ⟨hscript u hu, hmissing u hu⟩, ?_, ?_⟩
  · unfold processQuestion
    dsimp only
    rw [hs', hm']
    dsimp only
    cases hd : handleDynamicRecord s name with
    | mk b s' =>
      cases b
      · have hfix : s' = s := by
          have := handleDynamicRecord_false_state s name (by rw [hd])
          rw [hd] at this
          exact this
        dsimp only
        split
        · rw [hfix]
        · rw [hfix]
      · rfl
  · intro hmatch
    unfold processQuestion
    dsimp only
    rw [hs', hm']
    dsimp only
    cases hd : handleDynamicRecord s name with
    | mk b s' =>
      cases b
      · rw [hd] at hmatch
        cases hmatch
      · rfl

/-- Witness for C10 at a plain data-record name that matches neither the
script nor the missing grammar, processed as a type-A question. -/
theorem C10_name_only_classification_witness :
    (∀ u, u ≠ TypeTXT →
      handleScriptQuery emptyState (bytesOf "41.42.1.aaaa1111") u = none ∧
      handleMissingQuery emptyState (bytesOf "41.42.1.aaaa1111") u = none) ∧
    (processQuestion emptyState
        { Name := bytesOf "41.42.1.aaaa1111", Ty := TypeA, Class := 1 }).1 =
      (handleDynamicRecord emptyState (bytesOf "41.42.1.aaaa1111")).2 ∧
    ((handleDynamicRecord emptyState (bytesOf "41.42.1.aaaa1111")).1 = true →
      (processQuestion emptyState
          { Name := bytesOf "41.42.1.aaaa1111", Ty := TypeA, Class := 1 }).2.1 =
        if TypeA = TypeTXT then [okRecord (bytesOf "41.42.1.aaaa1111")] else []) :=
  C10_name_only_classification emptyState (bytesOf "41.42.1.aaaa1111") TypeA
    (by decide) (by decide)

/-- Counterexample to C10 as stated: the name
`3.4.10.start.deadbeef.linux.script` matches the start grammar, yet as a
TXT question the script handler answers first and no transfer state is
mutated, while as a type-A question the start record IS processed — so a
start-matching name does not mutate state "regardless of the query type". -/
theorem C10_counterexample :
    (processQuestion c10State { Name := c10Name, Ty := TypeTXT, Class := 1 }).1.fileAssemblies
        (bytesOf "deadbeef") = none ∧
    ((processQuestion c10State { Name := c10Name, Ty := TypeA, Class := 1 }).1.fileAssemblies
        (bytesOf "deadbeef")).isSome = true := by
  refine ⟨by decide, by decide⟩

theorem decodeNameAux_fuel_mono (data : Bytes) (mj : Nat) :
    ∀ fuel fuel' offset acc jumped origOff jumps r,
      decodeNameAux data mj fuel offset acc jumped origOff jumps = some r →
      fuel ≤ fuel' →
      decodeNameAux data mj fuel' offset acc jumped origOff jumps = some r := by
  intro fuel
  induction fuel with
  | zero =>
    intro fuel' offset acc jumped origOff jumps r h _
    cases h
  | succ fuel ih =>
    intro fuel' offset acc jumped origOff jumps r h hle
    cases fuel' with
    | zero => omega
    | succ fuel'' =>
      have hle'' : fuel ≤ fuel'' := by omega
      simp only [decodeNameAux] at h ⊢
      split_ifs at h ⊢ <;>
        first
          | exact h
          | exact ih fuel'' _ _ _ _ _ _ h hle''

theorem decodeNameAux_jumps_le (data : Bytes) (mj : Nat) :
    ∀ fuel offset acc jumped origOff jumps nm off j,
      decodeNameAux data mj fuel offset acc jumped origOff jumps = some (nm, off, j) →
      jumps ≤ j ∧ (j = jumps ∨ j ≤ mj) := by
  intro fuel
  induction fuel with
  | zero =>
    intro offset acc jumped origOff jumps nm off j h
    cases h
  | succ fuel ih =>
    intro offset acc jumped origOff jumps nm off j h
    simp only [decodeNameAux] at h
    split_ifs at h <;>
      first
        | (cases h; exact ⟨Nat.le_refl _, Or.inl rfl⟩)
        | (have hb := ih _ _ _ _ _ _ _ _ h; omega)

theorem decodeNameAux_fuel_congr (data : Bytes) (mj : Nat) :
    ∀ fuel fuel' offset acc jumped origOff jumps,
      (mj + 1 - jumps) * (data.length + 1) + (data.length - offset) < fuel →
      (mj + 1 - jumps) * (data.length + 1) + (data.length - offset) < fuel' →
      decodeNameAux data mj fuel offset acc jumped origOff jumps =
        decodeNameAux data mj fuel' offset acc jumped origOff jumps := by
  intro fuel
  induction fuel with
  | zero =>
    intro fuel' offset acc jumped origOff jumps hm _
    omega
  | succ fuel ih =>
    intro fuel' offset acc jumped origOff jumps hm hm'
    cases fuel' with
    | zero => omega
    | succ f' =>
      simp only [decodeNameAux]
      split_ifs <;> try rfl
      all_goals refine ih f' _ _ _ _ _ ?_ ?_
      all_goals
        try (have hprod : (mj + 1 - jumps) * (data.length + 1) =
                (mj + 1 - (jumps + 1)) * (data.length + 1) + (data.length + 1) := by
              have h' : mj + 1 - jumps = (mj + 1 - (jumps + 1)) + 1 := by omega
              rw [h', Nat.add_mul, one_mul])
      all_goals omega

theorem decodeNameAux_limit (data : Bytes) (m : Nat) :
    ∀ fuel offset acc jumped origOff jumps nm off j,
      decodeNameAux data m fuel offset acc jumped origOff jumps = some (nm, off, j) →
      jumps ≤ 5 →
      (j ≤ 5 →
        decodeNameAux data 5 fuel offset acc jumped origOff jumps = some (nm, off, j)) ∧
      (5 < j →
        decodeNameAux data 5 fuel offset acc jumped origOff jumps = none) := by
  intro fuel
  induction fuel with
  | zero =>
    intro offset acc jumped origOff jumps nm off j h _
    cases h
  | succ fuel ih =>
    intro offset acc jumped origOff jumps nm off j h hj5
    simp only [decodeNameAux] at h ⊢
    by_cases h1 : offset < data.length
    · rw [if_pos h1] at h ⊢
      by_cases h2 : data.getD offset 0 = 0
      · rw [if_pos h2] at h ⊢
        cases h
        exact ⟨fun _ => rfl, fun hgt => by omega⟩
      · rw [if_neg h2] at h ⊢
        by_cases h3 : data.getD offset 0 &&& 192 = 192
        · rw [if_pos h3] at h ⊢
          by_cases h4 : m < jumps + 1
          · rw [if_pos h4] at h
            cases h
          · rw [if_neg h4] at h
            by_cases h5 : offset + 1 < data.length
            · rw [if_pos h5] at h
              have hge := (decodeNameAux_jumps_le data m fuel _ _ _ _ _ _ _ _ h).1
              constructor
              · intro hj
                have hlim : ¬ (5 < jumps + 1) := by omega
                rw [if_neg hlim, if_pos h5]
                exact (ih _ _ _ _ _ _ _ _ h (by omega)).1 hj
              · intro hj
                by_cases hlim : 5 < jumps + 1
                · rw [if_pos hlim]
                · rw [if_neg hlim, if_pos h5]
                  exact (ih _ _ _ _ _ _ _ _ h (by omega)).2 hj
            · rw [if_neg h5] at h
              cases h
        · rw [if_neg h3] at h ⊢
          by_cases h6 : offset + 1 + data.getD offset 0 ≤ data.length
          · rw [if_pos h6] at h ⊢
            have := ih _ _ _ _ _ _ _ _ h hj5
            exact this
          · rw [if_neg h6] at h
            cases h
    · rw [if_neg h1] at h
      cases h

/-- C4: for any message bytes, if the pointer-following reference decode
(`decodeNameCore` with any jump allowance `m`) resolves a name performing
`j` jumps, then the Go decoder (jump limit 5) returns exactly that fully
expanded dot-separated name when `j ≤ 5`, and fails with a decode error
when the chain requires more than 5 jumps. -/
theorem C4_pointer_jump_limit (data : Bytes) (offset m : Nat) (nm : Bytes)
    (off j : Nat) (h : decodeNameCore data m offset = some (nm, off, j)) :
    (j ≤ 5 → decodeName data offset = some (nm, off)) ∧
    (5 < j → decodeName data offset = none) := by
  unfold decodeNameCore at h
  have hlim := decodeNameAux_limit data m (decodeFuel data m) offset [] false 0 0
    nm off j h (by omega)
  have hmeas5 : (5 + 1 - 0) * (data.length + 1) + (data.length - offset) <
      decodeFuel data 5 := by
    unfold decodeFuel
    omega
  have hj_le := (decodeNameAux_jumps_le data m _ _ _ _ _ _ _ _ _ h).2
  constructor
  · intro hj
    have hsome := hlim.1 hj
    unfold decodeName decodeNameCore
    rcases Nat.le_total (decodeFuel data m) (decodeFuel data 5) with hle | hle
    · rw [decodeNameAux_fuel_mono data 5 _ _ _ _ _ _ _ _ hsome hle]
      rfl
    · rw [decodeNameAux_fuel_congr data 5 (decodeFuel data 5) (decodeFuel data m)
        offset [] false 0 0 hmeas5 (lt_of_lt_of_le hmeas5 hle), hsome]
      rfl
  · intro hj
    have hnone := hlim.2 hj
    have hm5 : 5 < m := by omega
    have hle : decodeFuel data 5 ≤ decodeFuel data m := by
      unfold decodeFuel
      have := Nat.mul_le_mul_right (data.length + 1) (by omega : 5 + 1 ≤ m + 1)
      omega
    unfold decodeName decodeNameCore
    rw [decodeNameAux_fuel_congr data 5 (decodeFuel data 5) (decodeFuel data m)
      offset [] false 0 0 hmeas5 (lt_of_lt_of_le hmeas5 hle), hnone]
    rfl

/-- Witness for C4: a one-jump chain decodes to the expanded name `foo`, and
a six-jump chain makes the reference decode succeed with 6 jumps while the
Go decoder (limit 5) fails. -/
theorem C4_pointer_jump_limit_witness :
    decodeNameCore [3, 102, 111, 111, 0, 192, 0] 10 5 = some ([102, 111, 111], 7, 1) ∧
    decodeName [3, 102, 111, 111, 0, 192, 0] 5 = some ([102, 111, 111], 7) ∧
    decodeNameCore [192, 2, 192, 4, 192, 6, 192, 8, 192, 10, 192, 12, 1, 97, 0] 10 0 =
      some ([97], 2, 6) ∧
    decodeName [192, 2, 192, 4, 192, 6, 192, 8, 192, 10, 192, 12, 1, 97, 0] 0 = none :=
  ⟨by decide,
   (C4_pointer_jump_limit [3, 102, 111, 111, 0, 192, 0] 5 10 [102, 111, 111] 7 1
     (by decide)).1 (by decide),
   by decide,
   (C4_pointer_jump_limit [192, 2, 192, 4, 192, 6, 192, 8, 192, 10, 192, 12, 1, 97, 0]
     0 10 [97] 2 6 (by decide)).2 (by decide)⟩

theorem joinAcc_ne_acc (L : List Bytes) :
    ∀ (acc : Bytes), acc ≠ [] →
      joinAcc acc L = acc ++ (L.map (fun l => dot :: l)).flatten := by
  induction L with
  | nil => intro acc hacc; simp [joinAcc]
  | cons l ls ih =>
    intro acc hacc
    simp only [joinAcc, if_neg hacc]
    rw [ih (acc ++ dot :: l) (by simp)]
    simp

theorem intercalate_dot_cons (l : Bytes) (ls : List Bytes) :
    [dot].intercalate (l :: ls) = l ++ (ls.map (fun x => dot :: x)).flatten := by
  induction ls generalizing l with
  | nil => simp [List.intercalate]
  | cons x xs ih =>
    have hx := ih x
    simp only [List.intercalate, List.intersperse] at hx ⊢
    simp only [List.map_cons, List.flatten_cons]
    rw [hx]
    simp

theorem joinAcc_nil_eq (L : List Bytes) (hne : L ≠ []) (hL : ∀ l ∈ L, l ≠ []) :
    joinAcc [] L = [dot].intercalate L := by
  cases L with
  | nil => cases hne rfl
  | cons l ls =>
    simp only [joinAcc, if_pos rfl]
    rw [intercalate_dot_cons]
    by_cases hls : l = []
    · cases hL l (List.mem_cons_self l ls) hls
    · exact joinAcc_ne_acc ls l hls

theorem length_u16be (v : Nat) : (u16be v).length = 2 := rfl

theorem readU16_u16be (pre : Bytes) (v : Nat) (rest : Bytes) (hv : v < 65536) :
    readU16 (pre ++ (u16be v ++ rest)) pre.length = v := by
  have h0 : (pre ++ (u16be v ++ rest)).getD pre.length 0 = v / 256 % 256 := by
    rw [List.getD_eq_getElem?_getD, List.getElem?_append_right (Nat.le_refl _)]
    simp [u16be]
  have h1 : (pre ++ (u16be v ++ rest)).getD (pre.length + 1) 0 = v % 256 := by
    rw [List.getD_eq_getElem?_getD, List.getElem?_append_right (by omega)]
    have h2 : pre.length + 1 - pre.length = 1 := by omega
    rw [h2]
    simp [u16be]
  unfold readU16
  rw [h0, h1]
  omega

theorem encodeLabels_isSome (L : List Bytes) (hL : ∀ l ∈ L, l.length ≤ 63) :
    ∃ e, encodeLabels L = some e := by
  induction L with
  | nil => exact ⟨[0], rfl⟩
  | cons l ls ih =>
    obtain ⟨e', he'⟩ := ih (fun x hx => hL x (List.mem_cons_of_mem _ hx))
    refine ⟨l.length :: (l ++ e'), ?_⟩
    rw [encodeLabels, if_neg (by have := hL l (List.mem_cons_self l ls); omega), he']
    rfl

theorem and_192_eq_zero_of_le_63 (n : Nat) (h : n ≤ 63) : n &&& 192 = 0 := by
  revert h
  revert n
  decide

theorem decode_encodeLabels (mj : Nat) (L : List Bytes) :
    ∀ (e : Bytes), encodeLabels L = some e →
      (∀ l ∈ L, l ≠ [] ∧ l.length ≤ 63) →
      ∀ (pre post acc : Bytes) (origOff jumps fuel : Nat), e.length ≤ fuel →
      decodeNameAux (pre ++ e ++ post) mj fuel pre.length acc false origOff jumps =
        some (joinAcc acc L, pre.length + e.length, jumps) := by
  induction L with
  | nil =>
    intro e he hL pre post acc origOff jumps fuel hfuel
    rw [encodeLabels] at he
    cases he
    cases fuel with
    | zero => simp at hfuel
    | succ f =>
      have hoff : pre.length < (pre ++ [0] ++ post).length := by
        simp
      have hgetD : (pre ++ [0] ++ post).getD pre.length 0 = 0 := by
        rw [List.append_assoc, List.getD_eq_getElem?_getD,
          List.getElem?_append_right (Nat.le_refl _)]
        simp
      simp only [decodeNameAux, if_pos hoff, hgetD, if_pos rfl]
      simp [joinAcc]
  | cons l ls ih =>
    intro e he hL pre post acc origOff jumps fuel hfuel
    obtain ⟨hlne, hl63⟩ := hL l (List.mem_cons_self l ls)
    rw [encodeLabels, if_neg (by omega)] at he
    cases he' : encodeLabels ls with
    | none =>
      rw [he'] at he
      cases he
    | some e2 =>
      rw [he'] at he
      simp only [Option.map_some'] at he
      cases he
      have hflen : (l.length :: (l ++ e2)).length = 1 + l.length + e2.length := by
        simp
        omega
      cases fuel with
      | zero => simp at hfuel
      | succ f =>
        have hoff : pre.length < (pre ++ (l.length :: (l ++ e2)) ++ post).length := by
          simp
        have hgetD : (pre ++ (l.length :: (l ++ e2)) ++ post).getD pre.length 0 =
            l.length := by
          rw [List.append_assoc, List.getD_eq_getElem?_getD,
            List.getElem?_append_right (Nat.le_refl _)]
          simp
        have hlen0 : ¬ (l.length = 0) := fun h => hlne (List.length_eq_zero.mp h)
        have hmask : ¬ (l.length &&& 192 = 192) := by
          rw [and_192_eq_zero_of_le_63 l.length hl63]
          omega
        have hbound : pre.length + 1 + l.length ≤
            (pre ++ (l.length :: (l ++ e2)) ++ post).length := by
          simp
          omega
        have hdrop : (((pre ++ (l.length :: (l ++ e2)) ++ post).drop
            (pre.length + 1))).take l.length = l := by
          have hsplit : pre ++ (l.length :: (l ++ e2)) ++ post =
              (pre ++ [l.length]) ++ (l ++ (e2 ++ post)) := by
            simp
          rw [hsplit]
          have hplen : pre.length + 1 = (pre ++ [l.length]).length := by simp
          rw [hplen, List.drop_left, List.take_left]
        simp only [decodeNameAux, if_pos hoff, hgetD, if_neg hlen0, if_neg hmask,
          if_pos hbound, hdrop]
        have hre : pre ++ (l.length :: (l ++ e2)) ++ post =
            (pre ++ l.length :: l) ++ e2 ++ post := by
          simp
        have hplen2 : pre.length + 1 + l.length = (pre ++ l.length :: l).length := by
          simp
          omega
        rw [hre, hplen2,
          ih e2 he' (fun x hx => hL x (List.mem_cons_of_mem _ hx))
            (pre ++ l.length :: l) post _ origOff jumps f
            (by simp at hfuel ⊢; omega)]
        rw [joinAcc]
        have : (pre ++ l.length :: l).length + e2.length =
            pre.length + (l.length :: (l ++ e2)).length := by
          simp
          omega
        rw [this]

theorem decodeName_encodeName (name : Bytes) (hname : validName name)
    (enc : Bytes) (henc : encodeName name = some enc) (pre post : Bytes) :
    decodeName (pre ++ enc ++ post) pre.length =
      some (name, pre.length + enc.length) := by
  unfold decodeName decodeNameCore
  have hfuel : enc.length ≤ decodeFuel (pre ++ enc ++ post) 5 := by
    simp [decodeFuel]
    omega
  rcases hname with hnil | hlabels
  · subst hnil
    rw [encodeName, if_pos rfl] at henc
    cases henc
    rw [decode_encodeLabels 5 [] [0] rfl (by simp) pre post [] 0 0 _ hfuel]
    simp [joinAcc]
  · by_cases hn : name = []
    · subst hn
      obtain ⟨hbad, -⟩ := hlabels [] (by simp [List.splitOn])
      cases hbad rfl
    · rw [encodeName, if_neg hn] at henc
      rw [decode_encodeLabels 5 (name.splitOn dot) enc henc hlabels pre post [] 0 0 _
        hfuel]
      rw [joinAcc_nil_eq (List.splitOn dot name)
        (show List.splitOn dot name ≠ [] from List.splitOnP_ne_nil _ name)
        (fun l hl => (hlabels l hl).1)]
      rw [List.intercalate_splitOn]
      rfl

theorem parseQuestions_encode (qs : List Question) :
    ∀ (es : List Bytes), qs.mapM encodeQuestion = some es →
      (∀ q ∈ qs, validName q.Name ∧ q.Ty < 65536 ∧ q.Class < 65536) →
      ∀ (pre post : Bytes) (acc : List Question),
        parseQuestions (pre ++ es.flatten ++ post) qs.length pre.length acc =
          some (acc.reverse ++ qs, pre.length + es.flatten.length) := by
  induction qs with
  | nil =>
    intro es hes hq pre post acc
    rw [List.mapM_nil] at hes
    cases hes
    simp [parseQuestions]
  | cons q qs' ih =>
    intro es hes hq pre post acc
    rw [List.mapM_cons] at hes
    cases heq : encodeQuestion q with
    | none =>
      rw [heq] at hes
      simp at hes
    | some eq0 =>
      cases hes' : qs'.mapM encodeQuestion with
      | none =>
        rw [heq, hes'] at hes
        simp at hes
      | some es' =>
        rw [heq, hes'] at hes
        simp at hes
        subst hes
        obtain ⟨hv, hty, hcl⟩ := hq q (List.mem_cons_self q qs')
        unfold encodeQuestion at heq
        cases hnb : encodeName q.Name with
        | none =>
          rw [hnb] at heq
          cases heq
        | some nb =>
          rw [hnb] at heq
          simp only [Option.map_some'] at heq
          cases heq
          have hform : pre ++ ((nb ++ u16be q.Ty ++ u16be q.Class) :: es').flatten ++ post =
              pre ++ (nb ++ (u16be q.Ty ++ (u16be q.Class ++ (es'.flatten ++ post)))) := by
            simp
          have hdn := decodeName_encodeName q.Name hv nb hnb pre
            (u16be q.Ty ++ (u16be q.Class ++ (es'.flatten ++ post)))
          rw [List.append_assoc] at hdn
          have hread1 := readU16_u16be (pre ++ nb) q.Ty
            (u16be q.Class ++ (es'.flatten ++ post)) hty
          rw [List.append_assoc, List.length_append] at hread1
          have hread2 := readU16_u16be (pre ++ nb ++ u16be q.Ty) q.Class
            (es'.flatten ++ post) hcl
          rw [List.append_assoc, List.append_assoc, List.length_append,
            List.length_append, length_u16be] at hread2
          have hrec := ih es' hes'
            (fun x hx => hq x (List.mem_cons_of_mem _ hx))
            (pre ++ (nb ++ (u16be q.Ty ++ u16be q.Class))) post
            ({ Name := q.Name, Ty := q.Ty, Class := q.Class } :: acc)
          simp only [List.append_assoc, List.length_append, length_u16be] at hrec
          simp only [List.length_cons]
          rw [hform, parseQuestions]
          simp only [hdn]
          rw [if_pos (by simp [u16be]; omega)]
          rw [hread1, hread2]
          rw [show pre.length + nb.length + 4 = pre.length + (nb.length + (2 + 2))
            from by omega]
          rw [hrec]
          simp [u16be]
          omega

theorem headerBytes_length (hh : MessageHeader) : (headerBytes hh).length = 12 := rfl

theorem mapM_encodeQuestion_isSome (qs : List Question)
    (h : ∀ q ∈ qs, validName q.Name) :
    ∃ es, qs.mapM encodeQuestion = some es := by
  induction qs with
  | nil => exact ⟨[], List.mapM_nil _⟩
  | cons q qs' ih =>
    obtain ⟨es', hes'⟩ := ih (fun x hx => h x (List.mem_cons_of_mem _ hx))
    have hv := h q (List.mem_cons_self q qs')
    have henc : ∃ nb, encodeName q.Name = some nb := by
      unfold encodeName
      by_cases hn : q.Name = []
      · exact ⟨[0], by rw [if_pos hn]⟩
      · rw [if_neg hn]
        apply encodeLabels_isSome
        rcases hv with h0 | hlab
        · cases hn h0
        · exact fun l hl => (hlab l hl).2
    obtain ⟨nb, hnb⟩ := henc
    have hq0 : encodeQuestion q = some (nb ++ u16be q.Ty ++ u16be q.Class) := by
      unfold encodeQuestion
      rw [hnb]
      rfl
    refine ⟨(nb ++ u16be q.Ty ++ u16be q.Class) :: es', ?_⟩
    rw [List.mapM_cons, hq0, hes']
    rfl

/-- C3 (amended): for every valid message whose Answers section is empty,
serializing with `toBytes` and re-parsing with `parseMessage` restores the
message exactly.  (The parser never decodes answer records — queries only —
so the round-trip fails for messages carrying answers; see the
counterexample.) -/
theorem C3_roundtrip_no_answers (m : Message) (h : ValidMsg m)
    (hans : m.Answers = []) :
    (toBytes m).bind parseMessage = some m := by
  obtain ⟨hID, hFlags, hQdEq, hQd, hAnEq, hAn, hNs, hAr, hqs, -⟩ := h
  obtain ⟨es, hes⟩ := mapM_encodeQuestion_isSome m.Questions
    (fun q hq => (hqs q hq).1)
  have htb : toBytes m = some (headerBytes m.Header ++ es.flatten) := by
    unfold toBytes
    rw [hes, hans, List.mapM_nil]
    simp
  rw [htb, Option.some_bind]
  have h0 : readU16 (headerBytes m.Header ++ es.flatten) 0 = m.Header.ID := by
    have hr : readU16 (headerBytes m.Header ++ es.flatten) 0 =
        m.Header.ID / 256 % 256 * 256 + m.Header.ID % 256 := rfl
    omega
  have h2 : readU16 (headerBytes m.Header ++ es.flatten) 2 = m.Header.Flags := by
    have hr : readU16 (headerBytes m.Header ++ es.flatten) 2 =
        m.Header.Flags / 256 % 256 * 256 + m.Header.Flags % 256 := rfl
    omega
  have h4 : readU16 (headerBytes m.Header ++ es.flatten) 4 = m.Header.QdCount := by
    have hr : readU16 (headerBytes m.Header ++ es.flatten) 4 =
        m.Header.QdCount / 256 % 256 * 256 + m.Header.QdCount % 256 := rfl
    omega
  have h6 : readU16 (headerBytes m.Header ++ es.flatten) 6 = m.Header.AnCount := by
    have hr : readU16 (headerBytes m.Header ++ es.flatten) 6 =
        m.Header.AnCount / 256 % 256 * 256 + m.Header.AnCount % 256 := rfl
    omega
  have h8 : readU16 (headerBytes m.Header ++ es.flatten) 8 = m.Header.NsCount := by
    have hr : readU16 (headerBytes m.Header ++ es.flatten) 8 =
        m.Header.NsCount / 256 % 256 * 256 + m.Header.NsCount % 256 := rfl
    omega
  have h10 : readU16 (headerBytes m.Header ++ es.flatten) 10 = m.Header.ArCount := by
    have hr : readU16 (headerBytes m.Header ++ es.flatten) 10 =
        m.Header.ArCount / 256 % 256 * 256 + m.Header.ArCount % 256 := rfl
    omega
  have hp := parseQuestions_encode m.Questions es hes hqs (headerBytes m.Header) [] []
  rw [List.append_nil, headerBytes_length] at hp
  simp only [List.reverse_nil, List.nil_append] at hp
  rw [← hQdEq] at hp
  have hlen : ¬ (headerBytes m.Header ++ es.flatten).length < 12 := by
    rw [List.length_append, headerBytes_length]
    omega
  unfold parseMessage
  rw [if_neg hlen]
  dsimp only
  rw [h4, hp]
  dsimp only
  rw [h0, h2, h6, h8, h10, ← hans]

/-- Counterexample to C3 as stated: a valid message carrying one answer
record does not survive the round-trip — `ParseMessage` decodes only
questions, so the answer section is lost. -/
theorem C3_counterexample :
    ValidMsg c3Msg ∧ (toBytes c3Msg).bind parseMessage ≠ some c3Msg := by
  constructor
  · decide
  · decide

/-- Witness for C3 at a concrete single-question TXT query message. -/
theorem C3_roundtrip_no_answers_witness :
    (toBytes c3WitnessMsg).bind parseMessage = some c3WitnessMsg :=
  C3_roundtrip_no_answers c3WitnessMsg (by decide) rfl

end YoukaiDNS
